import Mathlib

/-!
Verification of the in-memory property graph of this repository.

The graph engine (store CRUD, filter combinators, connection finder) is
translated from `graph.go` as a shallow embedding: the Go maps
`map[string]Node` and `map[string]Relationship` become association lists
`List (String × _)`, each Go method that mutates the receiver becomes a
function returning the updated `Graph`, and Go errors become an explicit
`GoError` value.  The `Node` and `Relationship` record types and their
constructors live in a source file that is not part of the repository
snapshot; they are modelled from the spec where indicated.
-/

namespace AssetGraph

/-- Modelled from the spec: the `Node` record of the data model (the file
defining it is missing from the snapshot).  A node has an opaque immutable
`id`, a display `name`, a type tag `label`, and an opaque byte payload
`Body` (the only exported, mutable field). -/
structure Node where
  id : String
  name : String
  label : String
  Body : List Nat
deriving DecidableEq, Repr

/-- Modelled from the spec: the `Relationship` record: its own identity
`ID`, the identities `From` and `To` of its endpoints, the edge `Label`,
and a denormalized snapshot of the endpoint names taken at creation time
(used only for rendering). -/
structure Relationship where
  ID : String
  From : String
  To : String
  Label : String
  fromName : String
  toName : String
deriving DecidableEq, Repr

/-- Modelled from the spec: `newNode` (missing file) builds a node from a
generated identity and the caller-supplied name, label and body.  The
generated identity is passed in explicitly here, standing for the output
of the identity generator. -/
def newNode (freshId nm lb : String) (body : List Nat) : Node :=
  { id := freshId, name := nm, label := lb, Body := body }

/-- Modelled from the spec: `newRelationship` (missing file) builds a
relationship from a generated identity, the two (already fetched) endpoint
nodes and a label, denormalizing the endpoint names. -/
def newRelationship (freshId : String) (fromNode toNode : Node) (lb : String) :
    Relationship :=
  { ID := freshId, From := fromNode.id, To := toNode.id, Label := lb,
    fromName := fromNode.name, toName := toNode.name }

/-- Go error values produced by the store: `ErrNotFound` wrapped with a
message naming the missing node or relationship, possibly wrapped again
(as `AddRelationship` does) with the identity it was looking up. -/
inductive GoError where
  | notFoundNode (id : String)
  | notFoundRel (id : String)
  | wrap (ctx : String) (err : GoError)
deriving DecidableEq, Repr

/-- Whether the error wraps `ErrNotFound` (Go `errors.Is(err, ErrNotFound)`). -/
def GoError.wrapsNotFound : GoError → Bool
  | .notFoundNode _ => true
  | .notFoundRel _ => true
  | .wrap _ e => e.wrapsNotFound

/-- The graph store: the two Go maps, as association lists from identity
to value.  The `sync.RWMutex` has no observable effect on the sequential
semantics and is not modelled. -/
structure Graph where
  nodes : List (String × Node)
  relationships : List (String × Relationship)
deriving DecidableEq, Repr

/-- Go map read `m[k]`: the value bound to `k`, if any. -/
def mapLookup {α : Type} : List (String × α) → String → Option α
  | [], _ => none
  | p :: t, k => if p.1 = k then some p.2 else mapLookup t k

/-- Go map write `m[k] = v`: replace the binding if the key is present,
otherwise add one. -/
def mapInsert {α : Type} (m : List (String × α)) (k : String) (v : α) :
    List (String × α) :=
  if m.any (fun p => p.1 = k) then
    m.map (fun p => if p.1 = k then (k, v) else p)
  else m ++ [(k, v)]

/-- Go `delete(m, k)`: remove the binding of `k`, if any. -/
def mapErase {α : Type} : List (String × α) → String → List (String × α)
  | [], _ => []
  | p :: t, k => if p.1 = k then mapErase t k else p :: mapErase t k

/-- `NewGraph`. -/
def NewGraph : Graph := { nodes := [], relationships := [] }

/-- `Graph.InsertNode`: generate a node and store it under its id.  The
fresh identity is an explicit argument (see `newNode`). -/
def InsertNode (g : Graph) (freshId nm lb : String) (body : List Nat) :
    Graph × Node :=
  let node := newNode freshId nm lb body
  ({ g with nodes := mapInsert g.nodes node.id node }, node)

/-- `Graph.GetNodeByID`. -/
def GetNodeByID (g : Graph) (id : String) : Except GoError Node :=
  match mapLookup g.nodes id with
  | some item => .ok item
  | none => .error (.notFoundNode id)

/-- `Graph.ListNodes`: all stored nodes passing every clause. -/
def ListNodes (g : Graph) (clauses : List (Node → Bool)) : List Node :=
  (g.nodes.map Prod.snd).filter (fun item => clauses.all (fun c => c item))

/-- `Graph.UpdateNode`: replace the body of the node stored under
`nodeID`; on failure the store is returned unchanged. -/
def UpdateNode (g : Graph) (nodeID : String) (body : List Nat) :
    Graph × Except GoError Node :=
  match mapLookup g.nodes nodeID with
  | none => (g, .error (.notFoundNode nodeID))
  | some node =>
    let node := { node with Body := body }
    ({ g with nodes := mapInsert g.nodes node.id node }, .ok node)

/-- `Graph.DeleteNode`; on failure the store is returned unchanged. -/
def DeleteNode (g : Graph) (nodeID : String) : Graph × Option GoError :=
  match mapLookup g.nodes nodeID with
  | none => (g, some (.notFoundNode nodeID))
  | some node => ({ g with nodes := mapErase g.nodes node.id }, none)

/-- `Graph.AddRelationship`: re-fetch both endpoints by id from the
current store, then create and store a relationship with a fresh identity
(explicit argument, see `newRelationship`).  On failure the store is
returned unchanged. -/
def AddRelationship (g : Graph) (freshId : String) (fromArg toArg : Node)
    (lb : String) : Graph × Except GoError Relationship :=
  match GetNodeByID g fromArg.id with
  | .error e => (g, .error (.wrap fromArg.id e))
  | .ok fromNode =>
    match GetNodeByID g toArg.id with
    | .error e => (g, .error (.wrap toArg.id e))
    | .ok toNode =>
      let rel := newRelationship freshId fromNode toNode lb
      ({ g with relationships := mapInsert g.relationships rel.ID rel }, .ok rel)

/-- `Graph.GetRelationshipByID`. -/
def GetRelationshipByID (g : Graph) (id : String) : Except GoError Relationship :=
  match mapLookup g.relationships id with
  | some item => .ok item
  | none => .error (.notFoundRel id)

/-- `FilterRelByFrom`. -/
def FilterRelByFrom (fromID : String) : Relationship → Bool :=
  fun rel => rel.From == fromID

/-- `FilterRelByTo`. -/
def FilterRelByTo (toID : String) : Relationship → Bool :=
  fun rel => rel.To == toID

/-- `FilterRelByLabel`. -/
def FilterRelByLabel (lb : String) : Relationship → Bool :=
  fun rel => rel.Label == lb

/-- `FilterNodesByLabel`. -/
def FilterNodesByLabel (labels : List String) : Node → Bool :=
  fun node => labels.any (fun lb => node.label == lb)

/-- `FilterNodesByName`. -/
def FilterNodesByName (names : List String) : Node → Bool :=
  fun node => names.any (fun nm => node.name == nm)

/-- `Graph.ListRelationships`: all stored relationships passing every filter. -/
def ListRelationships (g : Graph) (filters : List (Relationship → Bool)) :
    List Relationship :=
  (g.relationships.map Prod.snd).filter (fun item => filters.all (fun c => c item))

/-- `ChainLink`: a singly linked path element; the Go terminal link (with
zero-valued relationship and nil next pointer) is the `terminal`
constructor. -/
inductive ChainLink where
  | terminal (node : Node)
  | link (node : Node) (rel : Relationship) (next : ChainLink)
deriving DecidableEq, Repr

/-- The destination identities of all stored relationships; the
termination measure of the connection finder counts how many of them are
not yet visited. -/
def relTos (g : Graph) : Finset String :=
  (g.relationships.map (fun p => p.2.To)).toFinset

theorem relTos_mem {g : Graph} {rel : Relationship}
    (h : rel ∈ g.relationships.map Prod.snd) : rel.To ∈ relTos g := by
  simp only [relTos, List.mem_toFinset, List.mem_map]
  rcases List.mem_map.mp h with ⟨p, hp, hpe⟩
  exact ⟨p, hp, by rw [hpe]⟩

theorem mem_listRelationships_from {g : Graph} {s : String} {rel : Relationship} :
    rel ∈ ListRelationships g [FilterRelByFrom s] ↔
      rel ∈ g.relationships.map Prod.snd ∧ rel.From = s := by
  simp [ListRelationships, FilterRelByFrom, List.mem_filter]

/-- `Graph.listConnections` (the recursive helper): depth-first search
over outgoing relationships of `src`, with the branch-local visited set.
The Go code first adds `src.id` to `visited`, so the skip test is against
`insert src.id visited`; the copied-and-extended set passed to the
recursive call is `insert rel.To (insert src.id visited)`. -/
def listConnections (g : Graph) (src dst : Node) (visited : Finset String) :
    List ChainLink :=
  (ListRelationships g [FilterRelByFrom src.id]).attach.flatMap
    (fun p =>
      if h1 : p.1.To ∈ insert src.id visited then []
      else if p.1.To = dst.id then
        [ChainLink.link src p.1 (ChainLink.terminal dst)]
      else
        match mapLookup g.nodes p.1.To with
        | none => []
        | some next =>
          (listConnections g next dst (insert p.1.To (insert src.id visited))).map
            (fun cons => ChainLink.link src p.1 cons))
termination_by (relTos g \ visited).card
decreasing_by
  apply Finset.card_lt_card
  constructor
  · intro x hx
    rcases Finset.mem_sdiff.mp hx with ⟨hx1, hx2⟩
    exact Finset.mem_sdiff.mpr ⟨hx1, fun hv => hx2 (by simp [hv])⟩
  · intro hsub
    have hto : p.1.To ∈ relTos g \ visited := by
      refine Finset.mem_sdiff.mpr ⟨?_, ?_⟩
      · exact relTos_mem (mem_listRelationships_from.mp p.2).1
      · intro hv
        exact h1 (by simp [hv])
    have := hsub hto
    rcases Finset.mem_sdiff.mp this with ⟨_, hns⟩
    exact hns (by simp)

/-- `Graph.ListConnections`: all connection chains from `src` to `dst`,
starting with an empty visited set. -/
def ListConnections (g : Graph) (src dst : Node) : List ChainLink :=
  listConnections g src dst ∅

theorem attach_flatMap_eq {α β : Type} (l : List α) (f : α → List β) :
    l.attach.flatMap (fun p => f p.1) = l.flatMap f := by
  induction l with
  | nil => rfl
  | cons a t ih =>
    simp only [List.attach_cons, List.flatMap_cons, List.flatMap_map]
    rw [ih]

/-- One unfolding of `listConnections`, stated without `attach`. -/
theorem listConnections_eq (g : Graph) (src dst : Node) (visited : Finset String) :
    listConnections g src dst visited =
      (ListRelationships g [FilterRelByFrom src.id]).flatMap
        (fun rel =>
          if rel.To ∈ insert src.id visited then []
          else if rel.To = dst.id then
            [ChainLink.link src rel (ChainLink.terminal dst)]
          else
            match mapLookup g.nodes rel.To with
            | none => []
            | some next =>
              (listConnections g next dst (insert rel.To (insert src.id visited))).map
                (fun cons => ChainLink.link src rel cons)) := by
  rw [listConnections]
  simp only [dite_eq_ite]
  exact attach_flatMap_eq (ListRelationships g [FilterRelByFrom src.id])
    (fun rel =>
      if rel.To ∈ insert src.id visited then []
      else if rel.To = dst.id then
        [ChainLink.link src rel (ChainLink.terminal dst)]
      else
        match mapLookup g.nodes rel.To with
        | none => []
        | some next =>
          (listConnections g next dst (insert rel.To (insert src.id visited))).map
            (fun cons => ChainLink.link src rel cons))

/-- Store well-formedness: both Go maps bind each identity key to a value
carrying that same identity, and keys are unique.  Every state reachable
through the store operations satisfies this. -/
def WF (g : Graph) : Prop :=
  (g.nodes.map Prod.fst).Nodup ∧ (g.relationships.map Prod.fst).Nodup ∧
  (∀ p ∈ g.nodes, p.2.id = p.1) ∧ (∀ p ∈ g.relationships, p.2.ID = p.1)

instance (g : Graph) : Decidable (WF g) := by
  unfold WF; infer_instance

/-- The relationships of a chain, in path order. -/
def chainRels : ChainLink → List Relationship
  | .terminal _ => []
  | .link _ r next => r :: chainRels next

/-- The nodes of a chain, in path order. -/
def chainNodes : ChainLink → List Node
  | .terminal n => [n]
  | .link n _ next => n :: chainNodes next

/-- `Chained a rels b`: the relationships in `rels` link up consecutively,
starting at identity `a` and ending at identity `b`. -/
def Chained : String → List Relationship → String → Prop
  | a, [], b => a = b
  | a, r :: rs, b => r.From = a ∧ Chained r.To rs b

/-- Whether `id` currently resolves to a stored node. -/
def resolvesN (g : Graph) (id : String) : Bool :=
  (mapLookup g.nodes id).isSome

/-- Stated from the spec: a directed relationship-path from `src` to
`dst` — a nonempty sequence of stored relationships linking `src.id` to
`dst.id`. -/
def IsPath (g : Graph) (src dst : Node) (rels : List Relationship) : Prop :=
  rels ≠ [] ∧ (∀ r ∈ rels, r ∈ g.relationships.map Prod.snd) ∧
    Chained src.id rels dst.id

/-- Stated from the spec: a simple directed relationship-path from `src`
to `dst` whose intermediate nodes all currently resolve to stored nodes:
no node identity along it repeats, and every destination except the final
one resolves. -/
def IsSimplePath (g : Graph) (src dst : Node) (rels : List Relationship) : Prop :=
  IsPath g src dst rels ∧
  (src.id :: rels.map (fun r => r.To)).Nodup ∧
  ∀ r ∈ rels.dropLast, resolvesN g r.To = true

/-- No relationship of the path lands on an already-visited identity. -/
def Avoids (visited : Finset String) (rels : List Relationship) : Prop :=
  ∀ r ∈ rels, r.To ∉ visited

/-- A simple path that also avoids a given visited set (the invariant of
the recursive search; at the top level the visited set is empty). -/
def PathOK (g : Graph) (visited : Finset String) (src dst : Node)
    (rels : List Relationship) : Prop :=
  IsSimplePath g src dst rels ∧ Avoids visited rels

/-- The stored node with the given identity (only used where the identity
is known to resolve; the fallback value is never reached there). -/
def resolveNode (g : Graph) (id : String) : Node :=
  (mapLookup g.nodes id).getD { id := id, name := "", label := "", Body := [] }

/-- Stated from the spec: the chain a path should materialize as — the
source node, then in path order each traversed relationship followed by
the stored node it lands on, ending with a terminal link holding the
caller-supplied destination node. -/
def specChain (g : Graph) (dst : Node) : Node → List Relationship → ChainLink
  | src, [] => ChainLink.terminal src
  | src, [r] => ChainLink.link src r (ChainLink.terminal dst)
  | src, r :: rest => ChainLink.link src r (specChain g dst (resolveNode g r.To) rest)

theorem mapLookup_append_single {α : Type} (m : List (String × α))
    (k k' : String) (v : α) (hm : ∀ p ∈ m, p.1 ≠ k) :
    mapLookup (m ++ [(k, v)]) k' =
      if k' = k then some v else mapLookup m k' := by
  induction m with
  | nil =>
    simp only [List.nil_append, mapLookup]
    by_cases h : k' = k
    · simp [h]
    · rw [if_neg (fun hh => h (Eq.symm hh)), if_neg h]
  | cons a t ih =>
    have ha : a.1 ≠ k := hm a (by simp)
    have ih2 := ih (fun p hp => hm p (by simp [hp]))
    simp only [List.cons_append, mapLookup, ih2]
    by_cases h2 : a.1 = k' <;> by_cases h3 : k' = k <;> simp_all

theorem mapLookup_map_replace {α : Type} (m : List (String × α))
    (k k' : String) (v : α) :
    mapLookup (m.map (fun p => if p.1 = k then (k, v) else p)) k' =
      if k' = k then (if m.any (fun p => p.1 = k) then some v else none)
      else mapLookup m k' := by
  induction m with
  | nil => by_cases h : k' = k <;> simp [h, mapLookup]
  | cons a t ih =>
    simp only [List.map_cons, List.any_cons, mapLookup, ih]
    by_cases ha : a.1 = k
    · by_cases h3 : k' = k
      · simp_all
      · have h4 : ¬ k = k' := fun hh => h3 (Eq.symm hh)
        simp_all
    · have hd : (decide (a.1 = k)) = false := by simp [ha]
      simp only [hd, Bool.false_or]
      by_cases h2 : a.1 = k' <;> by_cases h3 : k' = k <;> simp_all

theorem mapLookup_mapInsert {α : Type} (m : List (String × α))
    (k k' : String) (v : α) :
    mapLookup (mapInsert m k v) k' =
      if k' = k then some v else mapLookup m k' := by
  unfold mapInsert
  by_cases hany : m.any (fun p => p.1 = k)
  · simp only [hany, if_true, mapLookup_map_replace]
  · simp only [hany, if_false]
    refine mapLookup_append_single m k k' v ?_
    intro p hp hpk
    exact hany (List.any_eq_true.mpr ⟨p, hp, by simp [hpk]⟩)

theorem mapLookup_mapErase {α : Type} (m : List (String × α)) (k k' : String) :
    mapLookup (mapErase m k) k' =
      if k' = k then none else mapLookup m k' := by
  induction m with
  | nil => by_cases h : k' = k <;> simp [h, mapErase, mapLookup]
  | cons a t ih =>
    simp only [mapErase]
    by_cases ha : a.1 = k
    · rw [if_pos ha, ih]
      by_cases h3 : k' = k
      · simp [h3]
      · rw [if_neg h3, if_neg h3]
        simp only [mapLookup]
        rw [if_neg (by rw [ha]; exact fun hh => h3 (Eq.symm hh))]
    · rw [if_neg ha]
      simp only [mapLookup, ih]
      by_cases h2 : a.1 = k' <;> by_cases h3 : k' = k <;> simp_all

theorem mapLookup_eq_some_mem {α : Type} {m : List (String × α)} {k : String}
    {v : α} (h : mapLookup m k = some v) : (k, v) ∈ m := by
  induction m with
  | nil => simp [mapLookup] at h
  | cons a t ih =>
    simp only [mapLookup] at h
    by_cases ha : a.1 = k
    · rw [if_pos ha] at h
      have : a = (k, v) := by
        cases a
        simp only [Prod.mk.injEq]
        exact ⟨ha, by simpa using h⟩
      simp [this]
    · rw [if_neg ha] at h
      exact List.mem_cons_of_mem a (ih h)

theorem WF.lookup_node_id {g : Graph} (hwf : WF g) {k : String} {n : Node}
    (h : mapLookup g.nodes k = some n) : n.id = k := by
  have hmem := mapLookup_eq_some_mem h
  exact hwf.2.2.1 (k, n) hmem

theorem WF.relVals_nodup {g : Graph} (hwf : WF g) :
    (g.relationships.map Prod.snd).Nodup := by
  have hkeys : (g.relationships.map Prod.fst).Nodup := hwf.2.1
  have hl : g.relationships.Nodup := hkeys.of_map Prod.fst
  refine List.Nodup.map_on ?_ hl
  intro p hp q hq hpq
  have h1 : p.2.ID = p.1 := hwf.2.2.2 p hp
  have h2 : q.2.ID = q.1 := hwf.2.2.2 q hq
  have hfst : p.1 = q.1 := by rw [← h1, ← h2, hpq]
  calc p = (p.1, p.2) := rfl
    _ = (q.1, q.2) := by rw [hfst, hpq]
    _ = q := rfl

section StoreClaims

/-- Claim C4: for all inputs, calling `InsertNode` and then `GetNodeByID`
with the identity of the returned node succeeds and yields a node whose
label and body equal the inserted label and body exactly. -/
theorem insertNode_then_get (g : Graph) (freshId nm lb : String)
    (body : List Nat) :
    GetNodeByID (InsertNode g freshId nm lb body).1
        (InsertNode g freshId nm lb body).2.id =
      Except.ok (InsertNode g freshId nm lb body).2 ∧
    (InsertNode g freshId nm lb body).2.label = lb ∧
    (InsertNode g freshId nm lb body).2.Body = body := by
  refine ⟨?_, rfl, rfl⟩
  simp [InsertNode, GetNodeByID, newNode, mapLookup_mapInsert]

/-- Claim C5: updating a stored node's body replaces only the body: id,
name and label are preserved, every other node and all relationships are
unchanged, and a subsequent get returns the new body exactly. -/
theorem updateNode_preserves_identity (g : Graph) (hwf : WF g) (id1 : String)
    (body : List Nat) (node : Node)
    (hmem : mapLookup g.nodes id1 = some node) :
    ∃ g2 n2, UpdateNode g id1 body = (g2, Except.ok n2) ∧
      n2.id = node.id ∧ n2.name = node.name ∧ n2.label = node.label ∧
      n2.Body = body ∧
      GetNodeByID g2 id1 = Except.ok n2 ∧
      g2.relationships = g.relationships ∧
      ∀ k, k ≠ id1 → mapLookup g2.nodes k = mapLookup g.nodes k := by
  have hid : node.id = id1 := hwf.lookup_node_id hmem
  have hupd : UpdateNode g id1 body =
      ({ g with nodes := mapInsert g.nodes node.id { node with Body := body } },
        Except.ok { node with Body := body }) := by
    simp [UpdateNode, hmem]
  refine ⟨_, _, hupd, rfl, rfl, rfl, rfl, ?_, rfl, ?_⟩
  · simp [GetNodeByID, mapLookup_mapInsert, hid]
  · intro k hk
    show mapLookup (mapInsert g.nodes node.id { node with Body := body }) k = _
    rw [mapLookup_mapInsert, if_neg (by rw [hid]; exact hk)]

/-- Claim C6: get, update and delete on an identity absent from the node
collection fail with an error wrapping `NotFound`, and the store is
returned exactly as it was (all-or-nothing). -/
theorem absent_id_notFound (g : Graph) (id1 : String) (body : List Nat)
    (habs : mapLookup g.nodes id1 = none) :
    GetNodeByID g id1 = Except.error (GoError.notFoundNode id1) ∧
    UpdateNode g id1 body = (g, Except.error (GoError.notFoundNode id1)) ∧
    DeleteNode g id1 = (g, some (GoError.notFoundNode id1)) ∧
    (GoError.notFoundNode id1).wrapsNotFound = true := by
  refine ⟨?_, ?_, ?_, rfl⟩ <;> simp [GetNodeByID, UpdateNode, DeleteNode, habs]

/-- Claim C7: `ListNodes` returns a node iff every supplied predicate
holds of it (the empty predicate set matches every stored node), and
listing with two filters together returns, membership-wise, exactly the
intersection of listing with each filter alone. -/
theorem listNodes_filter_semantics (g : Graph) :
    (∀ (clauses : List (Node → Bool)) (n : Node),
      n ∈ ListNodes g clauses ↔
        n ∈ g.nodes.map Prod.snd ∧ ∀ c ∈ clauses, c n = true) ∧
    (∀ (c1 c2 : Node → Bool) (n : Node),
      n ∈ ListNodes g [c1, c2] ↔
        n ∈ ListNodes g [c1] ∧ n ∈ ListNodes g [c2]) := by
  constructor
  · intro clauses n
    simp [ListNodes, List.mem_filter, List.all_eq_true]
  · intro c1 c2 n
    simp only [ListNodes, List.mem_filter, List.all_eq_true]
    constructor
    · intro ⟨hm, hc⟩
      have h1 : c1 n = true := hc c1 (by simp)
      have h2 : c2 n = true := hc c2 (by simp)
      refine ⟨⟨hm, fun c hcm => ?_⟩, ⟨hm, fun c hcm => ?_⟩⟩ <;>
      · simp only [List.mem_cons, List.not_mem_nil, or_false] at hcm
        rw [hcm]
        first
        | exact h1
        | exact h2
    · intro ⟨⟨hm, h1⟩, ⟨_, h2⟩⟩
      refine ⟨hm, fun c hc => ?_⟩
      simp only [List.mem_cons, List.not_mem_nil, or_false] at hc
      rcases hc with hc | hc
      · rw [hc]; exact h1 c1 (by simp)
      · rw [hc]; exact h2 c2 (by simp)

/-- Claim C9: deleting a stored node removes exactly its entry: every
other node is unchanged and the relationship collection is entirely
unchanged. -/
theorem deleteNode_frame (g : Graph) (hwf : WF g) (id1 : String) (node : Node)
    (hmem : mapLookup g.nodes id1 = some node) :
    ∃ g2, DeleteNode g id1 = (g2, none) ∧
      g2.relationships = g.relationships ∧
      mapLookup g2.nodes id1 = none ∧
      ∀ k, k ≠ id1 → mapLookup g2.nodes k = mapLookup g.nodes k := by
  have hid : node.id = id1 := hwf.lookup_node_id hmem
  have hdel : DeleteNode g id1 =
      ({ g with nodes := mapErase g.nodes node.id }, none) := by
    simp [DeleteNode, hmem]
  refine ⟨_, hdel, rfl, ?_, ?_⟩
  · show mapLookup (mapErase g.nodes node.id) id1 = none
    rw [mapLookup_mapErase, if_pos hid.symm]
  · intro k hk
    show mapLookup (mapErase g.nodes node.id) k = _
    rw [mapLookup_mapErase, if_neg (by rw [hid]; exact hk)]

/-- Claim C8: `AddRelationship` fails with an error wrapping `NotFound`
and naming the missing endpoint exactly when one of the two endpoint
identities does not currently resolve in the store (the store is
consulted, not the caller's copies, and is returned unchanged); otherwise
it stores and returns a new relationship with the fresh identity, visible
to subsequent reads, leaving the node collection unchanged. -/
theorem addRelationship_spec (g : Graph) (freshId lb : String)
    (fromArg toArg : Node) :
    ((mapLookup g.nodes fromArg.id = none →
       AddRelationship g freshId fromArg toArg lb =
         (g, Except.error (GoError.wrap fromArg.id (GoError.notFoundNode fromArg.id))) ∧
       (GoError.wrap fromArg.id (GoError.notFoundNode fromArg.id)).wrapsNotFound = true) ∧
     (∀ fromNode, mapLookup g.nodes fromArg.id = some fromNode →
       mapLookup g.nodes toArg.id = none →
       AddRelationship g freshId fromArg toArg lb =
         (g, Except.error (GoError.wrap toArg.id (GoError.notFoundNode toArg.id))) ∧
       (GoError.wrap toArg.id (GoError.notFoundNode toArg.id)).wrapsNotFound = true) ∧
     (∀ fromNode toNode, mapLookup g.nodes fromArg.id = some fromNode →
       mapLookup g.nodes toArg.id = some toNode →
       ∃ g2, AddRelationship g freshId fromArg toArg lb =
           (g2, Except.ok (newRelationship freshId fromNode toNode lb)) ∧
         (newRelationship freshId fromNode toNode lb).ID = freshId ∧
         GetRelationshipByID g2 freshId =
           Except.ok (newRelationship freshId fromNode toNode lb) ∧
         g2.nodes = g.nodes)) := by
  refine ⟨fun h => ⟨?_, rfl⟩, fun fromNode hf h => ⟨?_, rfl⟩,
    fun fromNode toNode hf ht => ?_⟩
  · simp [AddRelationship, GetNodeByID, h]
  · simp [AddRelationship, GetNodeByID, hf, h]
  · have hadd : AddRelationship g freshId fromArg toArg lb =
        (Graph.mk g.nodes
          (mapInsert g.relationships freshId (newRelationship freshId fromNode toNode lb)),
         Except.ok (newRelationship freshId fromNode toNode lb)) := by
      simp [AddRelationship, GetNodeByID, hf, ht, newRelationship]
    refine ⟨_, hadd, rfl, ?_, rfl⟩
    simp [GetRelationshipByID, mapLookup_mapInsert]

end StoreClaims

section Examples

/-- A one-node example store, used to instantiate hypotheses. -/
def gEx1 : Graph := (InsertNode NewGraph "n1" "Bobita" "puppy" [1]).1

/-- The node stored in `gEx1`. -/
def nodeEx1 : Node := newNode "n1" "Bobita" "puppy" [1]

/-- A two-node example store. -/
def gEx2 : Graph := (InsertNode gEx1 "n2" "Azor" "puppy" [2]).1

/-- The second node stored in `gEx2`. -/
def nodeEx2 : Node := newNode "n2" "Azor" "puppy" [2]

/-- Witness for claim C5 at a concrete store. -/
theorem updateNode_preserves_identity_witness :
    WF gEx1 ∧ mapLookup gEx1.nodes "n1" = some nodeEx1 ∧
    (∃ g2 n2, UpdateNode gEx1 "n1" [7] = (g2, Except.ok n2) ∧
      n2.id = nodeEx1.id ∧ n2.name = nodeEx1.name ∧ n2.label = nodeEx1.label ∧
      n2.Body = [7] ∧
      GetNodeByID g2 "n1" = Except.ok n2 ∧
      g2.relationships = gEx1.relationships ∧
      ∀ k, k ≠ "n1" → mapLookup g2.nodes k = mapLookup gEx1.nodes k) :=
  ⟨by decide, by decide,
    updateNode_preserves_identity gEx1 (by decide) "n1" [7] nodeEx1 (by decide)⟩

/-- Witness for claim C6 at a concrete store. -/
theorem absent_id_notFound_witness :
    mapLookup NewGraph.nodes "x" = none ∧
    (GetNodeByID NewGraph "x" = Except.error (GoError.notFoundNode "x") ∧
     UpdateNode NewGraph "x" [] = (NewGraph, Except.error (GoError.notFoundNode "x")) ∧
     DeleteNode NewGraph "x" = (NewGraph, some (GoError.notFoundNode "x")) ∧
     (GoError.notFoundNode "x").wrapsNotFound = true) :=
  ⟨rfl, absent_id_notFound NewGraph "x" [] rfl⟩

/-- Witness for claim C9 at a concrete store. -/
theorem deleteNode_frame_witness :
    WF gEx1 ∧ mapLookup gEx1.nodes "n1" = some nodeEx1 ∧
    (∃ g2, DeleteNode gEx1 "n1" = (g2, none) ∧
      g2.relationships = gEx1.relationships ∧
      mapLookup g2.nodes "n1" = none ∧
      ∀ k, k ≠ "n1" → mapLookup g2.nodes k = mapLookup gEx1.nodes k) :=
  ⟨by decide, by decide,
    deleteNode_frame gEx1 (by decide) "n1" nodeEx1 (by decide)⟩

/-- Witness for claim C8 at a concrete store, exercising both a missing
endpoint and the success case. -/
theorem addRelationship_spec_witness :
    (mapLookup gEx2.nodes nodeEx1.id = some nodeEx1 ∧
     mapLookup gEx2.nodes nodeEx2.id = some nodeEx2 ∧
     ∃ g2, AddRelationship gEx2 "r1" nodeEx1 nodeEx2 "friends" =
         (g2, Except.ok (newRelationship "r1" nodeEx1 nodeEx2 "friends")) ∧
       (newRelationship "r1" nodeEx1 nodeEx2 "friends").ID = "r1" ∧
       GetRelationshipByID g2 "r1" =
         Except.ok (newRelationship "r1" nodeEx1 nodeEx2 "friends") ∧
       g2.nodes = gEx2.nodes) ∧
    (mapLookup gEx1.nodes nodeEx2.id = none ∧
     AddRelationship gEx1 "r1" nodeEx2 nodeEx1 "friends" =
       (gEx1, Except.error (GoError.wrap "n2" (GoError.notFoundNode "n2"))) ∧
     (GoError.wrap "n2" (GoError.notFoundNode "n2")).wrapsNotFound = true) :=
  ⟨⟨by decide, by decide,
    (addRelationship_spec gEx2 "r1" "friends" nodeEx1 nodeEx2).2.2
      nodeEx1 nodeEx2 (by decide) (by decide)⟩,
   ⟨by decide,
    (addRelationship_spec gEx1 "r1" "friends" nodeEx2 nodeEx1).1 (by decide)⟩⟩

end Examples

section ConnectionLemmas

theorem chained_cons (a : String) (r : Relationship) (rs : List Relationship)
    (b : String) : Chained a (r :: rs) b ↔ r.From = a ∧ Chained r.To rs b :=
  Iff.rfl

theorem chained_nil (a b : String) : Chained a [] b ↔ a = b := Iff.rfl

theorem chained_last : ∀ (rs : List Relationship) (a b : String),
    Chained a rs b → rs ≠ [] → b ∈ rs.map (fun r => r.To) := by
  intro rs
  induction rs with
  | nil => intro a b _ hne; exact absurd rfl hne
  | cons r rest ih =>
    intro a b h _
    obtain ⟨_, h2⟩ := (chained_cons a r rest b).mp h
    by_cases hr : rest = []
    · subst hr
      have hb : r.To = b := (chained_nil r.To b).mp h2
      simp [hb]
    · have := ih r.To b h2 hr
      simp only [List.map_cons, List.mem_cons]
      exact Or.inr this

theorem specChain_single (g : Graph) (dst src : Node) (r : Relationship) :
    specChain g dst src [r] = ChainLink.link src r (ChainLink.terminal dst) := by
  simp [specChain]

theorem specChain_cons (g : Graph) (dst src : Node) (r : Relationship)
    (rest : List Relationship) (hne : rest ≠ []) :
    specChain g dst src (r :: rest) =
      ChainLink.link src r (specChain g dst (resolveNode g r.To) rest) := by
  cases rest with
  | nil => exact absurd rfl hne
  | cons r2 rest2 => simp [specChain]

theorem chainRels_specChain (g : Graph) (dst : Node) :
    ∀ (rels : List Relationship) (src : Node), rels ≠ [] →
      chainRels (specChain g dst src rels) = rels := by
  intro rels
  induction rels with
  | nil => intro src h; exact absurd rfl h
  | cons r rest ih =>
    intro src _
    cases rest with
    | nil => simp [specChain, chainRels]
    | cons r2 rest2 =>
      rw [specChain_cons g dst src r (r2 :: rest2) (by simp)]
      simp only [chainRels]
      rw [ih (resolveNode g r.To) (by simp)]

theorem chainNodes_specChain (g : Graph) (hwf : WF g) (dst : Node) :
    ∀ (rels : List Relationship) (src : Node),
      Chained src.id rels dst.id →
      (∀ r ∈ rels.dropLast, resolvesN g r.To = true) →
      rels ≠ [] →
      (chainNodes (specChain g dst src rels)).map Node.id =
        src.id :: rels.map (fun r => r.To) := by
  intro rels
  induction rels with
  | nil => intro src _ _ h; exact absurd rfl h
  | cons r rest ih =>
    intro src hch hres _
    obtain ⟨_, hch2⟩ := (chained_cons _ r rest _).mp hch
    cases rest with
    | nil =>
      have hb : r.To = dst.id := (chained_nil r.To dst.id).mp hch2
      simp [specChain, chainNodes, hb]
    | cons r2 rest2 =>
      have hres1 : resolvesN g r.To = true := by
        apply hres
        rw [List.dropLast_cons₂]
        exact List.mem_cons_self r _
      obtain ⟨next, hnext⟩ : ∃ nx, mapLookup g.nodes r.To = some nx := by
        unfold resolvesN at hres1
        cases h : mapLookup g.nodes r.To with
        | none => rw [h] at hres1; simp at hres1
        | some nx => exact ⟨nx, rfl⟩
      have hnid : (resolveNode g r.To).id = r.To := by
        unfold resolveNode
        rw [hnext]
        simpa using hwf.lookup_node_id hnext
      rw [specChain_cons g dst src r (r2 :: rest2) (by simp)]
      simp only [chainNodes, List.map_cons]
      rw [ih (resolveNode g r.To) (by rw [hnid]; exact hch2)
        (fun r3 h3 => hres r3 (by rw [List.dropLast_cons₂]; exact List.mem_cons_of_mem _ h3))
        (by simp)]
      rw [hnid]
      simp

theorem card_step (g : Graph) {rel : Relationship} {src : Node}
    (visited : Finset String)
    (hrel : rel ∈ ListRelationships g [FilterRelByFrom src.id])
    (h1 : rel.To ∉ insert src.id visited) :
    (relTos g \ insert rel.To (insert src.id visited)).card <
      (relTos g \ visited).card := by
  apply Finset.card_lt_card
  constructor
  · intro x hx
    rcases Finset.mem_sdiff.mp hx with ⟨hx1, hx2⟩
    exact Finset.mem_sdiff.mpr ⟨hx1, fun hv => hx2 (by simp [hv])⟩
  · intro hsub
    have hto : rel.To ∈ relTos g \ visited := by
      refine Finset.mem_sdiff.mpr
        ⟨relTos_mem (mem_listRelationships_from.mp hrel).1, ?_⟩
      intro hv
      exact h1 (by simp [hv])
    rcases Finset.mem_sdiff.mp (hsub hto) with ⟨_, hns⟩
    exact hns (by simp)

theorem listConnections_nil_aux (g : Graph) :
    ∀ (n : ℕ) (src dst : Node) (visited : Finset String),
      (relTos g \ visited).card ≤ n →
      dst.id ∈ insert src.id visited →
      listConnections g src dst visited = [] := by
  intro n
  induction n using Nat.strong_induction_on with
  | _ n ih =>
    intro src dst visited hcard hdst
    rw [listConnections_eq, List.eq_nil_iff_forall_not_mem]
    intro c hc
    rw [List.mem_flatMap] at hc
    obtain ⟨rel, hrel, hbr⟩ := hc
    by_cases h1 : rel.To ∈ insert src.id visited
    · rw [if_pos h1] at hbr
      simp at hbr
    · rw [if_neg h1] at hbr
      by_cases h2 : rel.To = dst.id
      · exact h1 (by rw [h2]; exact hdst)
      · rw [if_neg h2] at hbr
        cases hlook : mapLookup g.nodes rel.To with
        | none => rw [hlook] at hbr; simp at hbr
        | some next =>
          rw [hlook] at hbr
          have hlt := card_step g visited hrel h1
          have hnil := ih ((relTos g) \ insert rel.To (insert src.id visited)).card
            (lt_of_lt_of_le hlt hcard) next dst
            (insert rel.To (insert src.id visited)) (le_refl _)
            (by simp only [Finset.mem_insert]
                rcases Finset.mem_insert.mp hdst with h | h
                · exact Or.inr (Or.inr (Or.inl h))
                · exact Or.inr (Or.inr (Or.inr h)))
          simp [hnil] at hbr

/-- The connection finder returns nothing when source and destination
have the same identity. -/
theorem listConnections_self (g : Graph) (src dst : Node)
    (h : src.id = dst.id) : ListConnections g src dst = [] :=
  listConnections_nil_aux g _ src dst ∅ (le_refl _) (by simp [h])

theorem dropLast_cons_ne {α : Type} (a : α) (l : List α) (h : l ≠ []) :
    (a :: l).dropLast = a :: l.dropLast := by
  cases l with
  | nil => exact absurd rfl h
  | cons b t => rw [List.dropLast_cons₂]

theorem resolveNode_eq {g : Graph} {k : String} {next : Node}
    (h : mapLookup g.nodes k = some next) : resolveNode g k = next := by
  unfold resolveNode
  rw [h]
  rfl

theorem listConnections_mem_aux (g : Graph) (hwf : WF g) :
    ∀ (n : ℕ) (src dst : Node) (visited : Finset String),
      (relTos g \ visited).card ≤ n →
      dst.id ∉ visited → src.id ≠ dst.id →
      ∀ c, c ∈ listConnections g src dst visited ↔
        ∃ rels, PathOK g visited src dst rels ∧ c = specChain g dst src rels := by
  intro n
  induction n using Nat.strong_induction_on with
  | _ n ih =>
    intro src dst visited hcard hdstv hnesd c
    rw [listConnections_eq, List.mem_flatMap]
    constructor
    · rintro ⟨rel, hrel, hbr⟩
      obtain ⟨hrelv, hrelfrom⟩ := mem_listRelationships_from.mp hrel
      by_cases h1 : rel.To ∈ insert src.id visited
      · rw [if_pos h1] at hbr
        simp at hbr
      · rw [if_neg h1] at hbr
        have hne1 : rel.To ≠ src.id := fun h => h1 (by simp [h])
        have hnv1 : rel.To ∉ visited := fun h => h1 (by simp [h])
        by_cases h2 : rel.To = dst.id
        · rw [if_pos h2] at hbr
          simp only [List.mem_singleton] at hbr
          refine ⟨[rel], ⟨⟨⟨by simp, ?_, ?_⟩, ?_, ?_⟩, ?_⟩, ?_⟩
          · intro r hr
            simp only [List.mem_singleton] at hr
            subst hr
            exact hrelv
          · exact (chained_cons _ _ _ _).mpr ⟨hrelfrom, (chained_nil _ _).mpr h2⟩
          · simp [Ne.symm hne1]
          · simp
          · intro r hr
            simp only [List.mem_singleton] at hr
            subst hr
            exact hnv1
          · rw [hbr, specChain_single]
        · rw [if_neg h2] at hbr
          cases hlook : mapLookup g.nodes rel.To with
          | none =>
            rw [hlook] at hbr
            simp at hbr
          | some next =>
            rw [hlook] at hbr
            simp only [List.mem_map] at hbr
            obtain ⟨c0, hc0, hceq⟩ := hbr
            have hnid : next.id = rel.To := hwf.lookup_node_id hlook
            have hlt := card_step g visited hrel h1
            have hdstnotin : dst.id ∉ insert rel.To (insert src.id visited) := by
              simp only [Finset.mem_insert]
              push_neg
              exact ⟨fun h => h2 h.symm, Ne.symm hnesd, hdstv⟩
            have hsub := ih _ (lt_of_lt_of_le hlt hcard) next dst
              (insert rel.To (insert src.id visited)) (le_refl _) hdstnotin
              (by rw [hnid]; exact h2) c0
            obtain ⟨rels0, hpok0, hc0eq⟩ := hsub.mp hc0
            obtain ⟨⟨⟨hne0, hmem0, hch0⟩, hnd0, hres0⟩, hav0⟩ := hpok0
            refine ⟨rel :: rels0, ⟨⟨⟨by simp, ?_, ?_⟩, ?_, ?_⟩, ?_⟩, ?_⟩
            · intro r hr
              rcases List.mem_cons.mp hr with h | h
              · subst h; exact hrelv
              · exact hmem0 r h
            · exact (chained_cons _ _ _ _).mpr ⟨hrelfrom, by rw [← hnid]; exact hch0⟩
            · simp only [List.map_cons, List.nodup_cons, List.mem_cons] at hnd0 ⊢
              obtain ⟨hnd0a, hnd0b⟩ := hnd0
              rw [hnid] at hnd0a
              push_neg
              refine ⟨⟨Ne.symm hne1, ?_⟩, hnd0a, hnd0b⟩
              intro hmm
              rcases List.mem_map.mp hmm with ⟨r, hr, hrTo⟩
              have := hav0 r hr
              rw [hrTo] at this
              exact this (by simp)
            · intro r hr
              rw [dropLast_cons_ne rel rels0 hne0] at hr
              rcases List.mem_cons.mp hr with h | h
              · subst h
                unfold resolvesN
                rw [hlook]
                rfl
              · exact hres0 r h
            · intro r hr
              rcases List.mem_cons.mp hr with h | h
              · subst h; exact hnv1
              · exact fun hv => hav0 r h (by simp [hv])
            · rw [← hceq, hc0eq, specChain_cons g dst src rel rels0 hne0,
                resolveNode_eq hlook]
    · rintro ⟨rels, ⟨⟨⟨hne0, hmem0, hch0⟩, hnd0, hres0⟩, hav0⟩, hceq⟩
      cases rels with
      | nil => exact absurd rfl hne0
      | cons rel rest =>
        obtain ⟨hfrom, hch2⟩ := (chained_cons _ _ _ _).mp hch0
        have hrelmem : rel ∈ ListRelationships g [FilterRelByFrom src.id] :=
          mem_listRelationships_from.mpr ⟨hmem0 rel (by simp), hfrom⟩
        simp only [List.map_cons, List.nodup_cons, List.mem_cons] at hnd0
        obtain ⟨hsrcn, hrelTon, hndrest⟩ := hnd0
        push_neg at hsrcn
        obtain ⟨hsrc_ne, hsrc_nin⟩ := hsrcn
        have h1 : rel.To ∉ insert src.id visited := by
          simp only [Finset.mem_insert]
          push_neg
          exact ⟨fun h => hsrc_ne h.symm, hav0 rel (by simp)⟩
        refine ⟨rel, hrelmem, ?_⟩
        rw [if_neg h1]
        cases rest with
        | nil =>
          have hto : rel.To = dst.id := (chained_nil _ _).mp hch2
          rw [if_pos hto]
          simp only [List.mem_singleton]
          rw [hceq, specChain_single]
        | cons r2 rest2 =>
          have hlast : dst.id ∈ (r2 :: rest2).map (fun r => r.To) :=
            chained_last (r2 :: rest2) rel.To dst.id hch2 (by simp)
          have h2 : ¬ rel.To = dst.id := by
            intro h
            exact hrelTon (by rw [h]; exact hlast)
          rw [if_neg h2]
          have hres1 : resolvesN g rel.To = true := by
            apply hres0 rel
            rw [dropLast_cons_ne rel (r2 :: rest2) (by simp)]
            exact List.mem_cons_self rel _
          obtain ⟨next, hlook⟩ : ∃ nx, mapLookup g.nodes rel.To = some nx := by
            unfold resolvesN at hres1
            cases h : mapLookup g.nodes rel.To with
            | none => rw [h] at hres1; simp at hres1
            | some nx => exact ⟨nx, rfl⟩
          rw [hlook]
          simp only [List.mem_map]
          have hnid : next.id = rel.To := hwf.lookup_node_id hlook
          have hdstnotin : dst.id ∉ insert rel.To (insert src.id visited) := by
            simp only [Finset.mem_insert]
            push_neg
            exact ⟨fun h => h2 h.symm, Ne.symm hnesd, hdstv⟩
          have hlt := card_step g visited hrelmem h1
          have hihm := ih _ (lt_of_lt_of_le hlt hcard) next dst
            (insert rel.To (insert src.id visited)) (le_refl _) hdstnotin
            (by rw [hnid]; exact h2) (specChain g dst next (r2 :: rest2))
          refine ⟨specChain g dst next (r2 :: rest2), ?_, ?_⟩
          · apply hihm.mpr
            refine ⟨r2 :: rest2, ⟨⟨⟨by simp, ?_, ?_⟩, ?_, ?_⟩, ?_⟩, rfl⟩
            · intro r hr
              exact hmem0 r (List.mem_cons_of_mem _ hr)
            · rw [hnid]; exact hch2
            · rw [hnid]
              simp only [List.nodup_cons]
              exact ⟨hrelTon, hndrest⟩
            · intro r hr
              apply hres0 r
              rw [dropLast_cons_ne rel (r2 :: rest2) (by simp)]
              exact List.mem_cons_of_mem _ hr
            · intro r hr
              simp only [Finset.mem_insert]
              push_neg
              refine ⟨?_, ?_, hav0 r (List.mem_cons_of_mem _ hr)⟩
              · intro h
                exact hrelTon (by rw [← h]; exact List.mem_map_of_mem _ hr)
              · intro h
                exact hsrc_nin (by rw [← h]; exact List.mem_map_of_mem _ hr)
          · rw [hceq, specChain_cons g dst src rel (r2 :: rest2) (by simp),
              resolveNode_eq hlook]

/-- The loop body of `listConnections` for a single outgoing relationship. -/
def connStep (g : Graph) (src dst : Node) (visited : Finset String)
    (rel : Relationship) : List ChainLink :=
  if rel.To ∈ insert src.id visited then []
  else if rel.To = dst.id then
    [ChainLink.link src rel (ChainLink.terminal dst)]
  else
    match mapLookup g.nodes rel.To with
    | none => []
    | some next =>
      (listConnections g next dst (insert rel.To (insert src.id visited))).map
        (fun cons => ChainLink.link src rel cons)

theorem listConnections_eq_step (g : Graph) (src dst : Node)
    (visited : Finset String) :
    listConnections g src dst visited =
      (ListRelationships g [FilterRelByFrom src.id]).flatMap
        (connStep g src dst visited) :=
  listConnections_eq g src dst visited

theorem connStep_head {g : Graph} {src dst : Node} {visited : Finset String}
    {rel : Relationship} {xs : List Relationship}
    (hx : xs ∈ (connStep g src dst visited rel).map chainRels) :
    ∃ t, xs = rel :: t := by
  unfold connStep at hx
  by_cases h1 : rel.To ∈ insert src.id visited
  · rw [if_pos h1] at hx
    simp at hx
  · rw [if_neg h1] at hx
    by_cases h2 : rel.To = dst.id
    · rw [if_pos h2] at hx
      simp only [List.map_cons, List.map_nil, List.mem_singleton] at hx
      exact ⟨chainRels (ChainLink.terminal dst), by rw [hx]; rfl⟩
    · rw [if_neg h2] at hx
      cases hlook : mapLookup g.nodes rel.To with
      | none =>
        rw [hlook] at hx
        simp at hx
      | some next =>
        rw [hlook] at hx
        rw [List.map_map] at hx
        rcases List.mem_map.mp hx with ⟨c, _, hceq⟩
        exact ⟨chainRels c, by rw [← hceq]; rfl⟩

theorem listConnections_rels_nodup_aux (g : Graph) (hwf : WF g) :
    ∀ (n : ℕ) (src dst : Node) (visited : Finset String),
      (relTos g \ visited).card ≤ n →
      ((listConnections g src dst visited).map chainRels).Nodup := by
  intro n
  induction n using Nat.strong_induction_on with
  | _ n ih =>
    intro src dst visited hcard
    rw [listConnections_eq_step, List.map_flatMap]
    have hvals : (ListRelationships g [FilterRelByFrom src.id]).Nodup :=
      (hwf.relVals_nodup).filter _
    rw [List.nodup_flatMap]
    constructor
    · intro rel hrel
      unfold connStep
      by_cases h1 : rel.To ∈ insert src.id visited
      · rw [if_pos h1]
        simp
      · rw [if_neg h1]
        by_cases h2 : rel.To = dst.id
        · rw [if_pos h2]
          simp
        · rw [if_neg h2]
          cases hlook : mapLookup g.nodes rel.To with
          | none =>
            show (List.map chainRels ([] : List ChainLink)).Nodup
            simp
          | some next =>
            show (List.map chainRels
              ((listConnections g next dst (insert rel.To (insert src.id visited))).map
                (fun cons => ChainLink.link src rel cons))).Nodup
            rw [List.map_map]
            have hcomp :
                (chainRels ∘ fun cons => ChainLink.link src rel cons) =
                  (fun rls => rel :: rls) ∘ chainRels := rfl
            rw [hcomp, ← List.map_map]
            refine List.Nodup.map (fun a b hab => ?_) ?_
            · simpa using hab
            · exact ih _ (lt_of_lt_of_le (card_step g visited hrel h1) hcard)
                next dst _ (le_refl _)
    · refine hvals.imp (fun hab => ?_)
      intro xs hxa hxb
      obtain ⟨t1, ht1⟩ := connStep_head hxa
      obtain ⟨t2, ht2⟩ := connStep_head hxb
      apply hab
      have : _ :: _ = _ :: _ := ht1.symm.trans ht2
      exact (List.cons.injEq _ _ _ _ ▸ this).1

end ConnectionLemmas

section ConnectionClaims

/-- Claim C1: for endpoints with distinct identities, the chains returned
by `ListConnections` are in one-to-one correspondence with the simple
directed relationship-paths from `src` to `dst` whose intermediate nodes
currently resolve to stored nodes: the relationship sequences of the
returned chains are duplicate-free and are exactly those paths (so two
parallel relationships yield two distinct chains), each chain is the
materialization of its path (every node and relationship in path order,
from `src` to `dst`), and the chain's node identities are the path's
identities, none repeated. -/
theorem listConnections_path_correspondence (g : Graph) (src dst : Node)
    (hwf : WF g) (hne : src.id ≠ dst.id) :
    ((ListConnections g src dst).map chainRels).Nodup ∧
    (∀ rels, rels ∈ (ListConnections g src dst).map chainRels ↔
      IsSimplePath g src dst rels) ∧
    (∀ c ∈ ListConnections g src dst, c = specChain g dst src (chainRels c)) ∧
    (∀ c ∈ ListConnections g src dst,
      (chainNodes c).map Node.id = src.id :: (chainRels c).map (fun r => r.To)) := by
  have hmem : ∀ c, c ∈ ListConnections g src dst ↔
      ∃ rels, PathOK g ∅ src dst rels ∧ c = specChain g dst src rels :=
    fun c => listConnections_mem_aux g hwf ((relTos g \ ∅).card) src dst ∅
      (le_refl _) (by simp) hne c
  have hpath : ∀ rels, PathOK g ∅ src dst rels ↔ IsSimplePath g src dst rels := by
    intro rels
    constructor
    · exact fun h => h.1
    · exact fun h => ⟨h, fun r _ => Finset.not_mem_empty _⟩
  refine ⟨listConnections_rels_nodup_aux g hwf _ src dst ∅ (le_refl _), ?_, ?_, ?_⟩
  · intro rels
    rw [List.mem_map]
    constructor
    · rintro ⟨c, hc, hcr⟩
      obtain ⟨rels0, hpok, hceq⟩ := (hmem c).mp hc
      have h0 := (hpath rels0).mp hpok
      have hne0 : rels0 ≠ [] := h0.1.1
      rw [← hcr, hceq, chainRels_specChain g dst rels0 src hne0]
      exact h0
    · intro hsp
      refine ⟨specChain g dst src rels, ?_, ?_⟩
      · exact (hmem _).mpr ⟨rels, (hpath rels).mpr hsp, rfl⟩
      · exact chainRels_specChain g dst rels src hsp.1.1
  · intro c hc
    obtain ⟨rels0, hpok, hceq⟩ := (hmem c).mp hc
    have hne0 : rels0 ≠ [] := hpok.1.1.1
    rw [hceq, chainRels_specChain g dst rels0 src hne0]
  · intro c hc
    obtain ⟨rels0, hpok, hceq⟩ := (hmem c).mp hc
    have h0 := (hpath rels0).mp hpok
    have hne0 : rels0 ≠ [] := h0.1.1
    rw [hceq, chainRels_specChain g dst rels0 src hne0,
      chainNodes_specChain g hwf dst rels0 src h0.1.2.2 h0.2.2 hne0]

/-- Claim C2: the connection finder terminates on every finite graph
state, cyclic or not — it is defined here by well-founded recursion on
the number of not-yet-visited relationship destinations, which the
strictly growing visited set shrinks on every recursive call — and it
returns only the finite set of simple paths: the returned list is
duplicate-free and no chain in it repeats a node identity. -/
theorem listConnections_terminates (g : Graph) (src dst : Node) (hwf : WF g) :
    (ListConnections g src dst).Nodup ∧
    ∀ c ∈ ListConnections g src dst, ((chainNodes c).map Node.id).Nodup := by
  constructor
  · exact List.Nodup.of_map chainRels
      (listConnections_rels_nodup_aux g hwf _ src dst ∅ (le_refl _))
  · intro c hc
    by_cases hne : src.id = dst.id
    · rw [listConnections_self g src dst hne] at hc
      simp at hc
    · obtain ⟨rels0, hpok, hceq⟩ := (listConnections_mem_aux g hwf _ src dst ∅
        (le_refl _) (by simp) hne c).mp hc
      obtain ⟨⟨⟨hne0, hmem0, hch0⟩, hnd0, hres0⟩, _⟩ := hpok
      rw [hceq, chainNodes_specChain g hwf dst rels0 src hch0 hres0 hne0]
      exact hnd0

/-- Claim C3: `ListConnections` returns the empty sequence whenever no
directed path from `src` to `dst` exists, and whenever `src` and `dst`
have the same identity (no zero-length path is synthesized, even with
cycles or self-loops through `src`). -/
theorem listConnections_empty (g : Graph) (src dst : Node) (hwf : WF g)
    (h : src.id = dst.id ∨ ¬ ∃ rels, IsPath g src dst rels) :
    ListConnections g src dst = [] := by
  rcases h with h | h
  · exact listConnections_self g src dst h
  · by_cases hne : src.id = dst.id
    · exact listConnections_self g src dst hne
    · rw [List.eq_nil_iff_forall_not_mem]
      intro c hc
      obtain ⟨rels, hpok, _⟩ := (listConnections_mem_aux g hwf _ src dst ∅
        (le_refl _) (by simp) hne c).mp hc
      exact h ⟨rels, hpok.1.1⟩

end ConnectionClaims

section ConnectionExamples

/-- Example store with nodes `n1`, `n2` and one relationship. -/
def gEx3 : Graph := (AddRelationship gEx2 "r1" nodeEx1 nodeEx2 "friends").1

/-- Witness for claim C1 at a concrete store. -/
theorem listConnections_path_correspondence_witness :
    WF gEx3 ∧ nodeEx1.id ≠ nodeEx2.id ∧
    (((ListConnections gEx3 nodeEx1 nodeEx2).map chainRels).Nodup ∧
     (∀ rels, rels ∈ (ListConnections gEx3 nodeEx1 nodeEx2).map chainRels ↔
       IsSimplePath gEx3 nodeEx1 nodeEx2 rels) ∧
     (∀ c ∈ ListConnections gEx3 nodeEx1 nodeEx2,
       c = specChain gEx3 nodeEx2 nodeEx1 (chainRels c)) ∧
     (∀ c ∈ ListConnections gEx3 nodeEx1 nodeEx2,
       (chainNodes c).map Node.id =
         nodeEx1.id :: (chainRels c).map (fun r => r.To))) :=
  ⟨by decide, by decide,
    listConnections_path_correspondence gEx3 nodeEx1 nodeEx2 (by decide) (by decide)⟩

/-- Witness for claim C2 at a concrete store. -/
theorem listConnections_terminates_witness :
    WF gEx3 ∧
    ((ListConnections gEx3 nodeEx1 nodeEx2).Nodup ∧
     ∀ c ∈ ListConnections gEx3 nodeEx1 nodeEx2,
       ((chainNodes c).map Node.id).Nodup) :=
  ⟨by decide, listConnections_terminates gEx3 nodeEx1 nodeEx2 (by decide)⟩

/-- Witness for claim C3 at a concrete store (`src` and `dst` share an
identity). -/
theorem listConnections_empty_witness :
    WF gEx1 ∧
    (nodeEx1.id = nodeEx1.id ∨ ¬ ∃ rels, IsPath gEx1 nodeEx1 nodeEx1 rels) ∧
    ListConnections gEx1 nodeEx1 nodeEx1 = [] :=
  ⟨by decide, Or.inl rfl,
    listConnections_empty gEx1 nodeEx1 nodeEx1 (by decide) (Or.inl rfl)⟩

/-- Node `a` of the dangling-destination example. -/
def nodeA : Node := newNode "a" "A" "thing" []

/-- Node `b` of the dangling-destination example (deleted below). -/
def nodeB : Node := newNode "b" "B" "thing" []

/-- The relationship `a → b` of the dangling-destination example. -/
def relAB : Relationship := newRelationship "r1" nodeA nodeB "knows"

/-- Store in which `a → b` was added and then node `b` was deleted: the
relationship into `b` remains while `b` no longer resolves. -/
def gC10 : Graph :=
  (DeleteNode
    (AddRelationship
      ((InsertNode ((InsertNode NewGraph "a" "A" "thing" []).1)
        "b" "B" "thing" []).1)
      "r1" nodeA nodeB "knows").1
    "b").1

/-- Claim C10: when a relationship's destination identity equals the
destination's identity, a chain is emitted without checking that the
destination resolves: in `gC10` the destination node has been deleted but
the relationship into it remains, yet `ListConnections` returns one chain
whose terminal link holds the caller-supplied destination value. -/
theorem listConnections_dangling_destination :
    mapLookup gC10.nodes nodeB.id = none ∧
    mapLookup gC10.relationships "r1" = some relAB ∧
    ListConnections gC10 nodeA nodeB =
      [ChainLink.link nodeA relAB (ChainLink.terminal nodeB)] := by
  refine ⟨by decide, by decide, ?_⟩
  rw [ListConnections, listConnections_eq_step]
  decide

end ConnectionExamples

end AssetGraph
